import Mathlib

/-!
Shallow embedding of the fsm-go finite state machine engine (src/fsm.go)
and verification of its specification.

Go's `StateNode` and `EventType` are integer types used only as comparable
map keys; they are embedded as `Int`.  Go maps are embedded as functions
into `Option`.  Nil-able Go function values (`Callback`) are embedded as
`Option` of a Lean function.  The ignore hook is a caller-supplied side
effect; its invocations are made observable by recording, in the result of
`Emit`, the list of events it was invoked with.
-/

namespace FSMGo

/-- StateNode represents a state node in the FSM graph (Go: `type StateNode int`). -/
abbrev StateNode := Int

/-- EventType represents an event discriminator (Go: `type EventType int`). -/
abbrev EventType := Int

/-- An Event exposes its `EventType` and an opaque payload (Go: interface
with `Type()` and `Unwrap()`; the payload is never inspected by the core,
so it is embedded as a bare `Nat`). -/
structure Event where
  type_ : EventType
  payload : Nat
deriving DecidableEq

/-- Callback is the signature of guard / ignore-hook functions
(Go: `type Callback func(Event) bool`). -/
abbrev Callback := Event → Bool

/-- TransEdge describes a transition: state `From` receives an event of
type `Event` and transfers to state `To`, gated by the optional
`Callback` (Go struct `TransEdge`; a nil Go func is `none`). -/
structure TransEdge where
  From : StateNode
  Event : EventType
  To : StateNode
  Callback : Option FSMGo.Callback

/-- Table entry (Go struct `stateInfo`): destination state and optional guard. -/
structure stateInfo where
  state : StateNode
  cb : Option Callback

/-- The compiled transition table. Go uses
`map[StateNode]map[EventType]stateInfo`; a missing outer or inner key both
yield a failed lookup, so the two-level map is embedded as one curried
function into `Option`. -/
abbrev Graph := StateNode → EventType → Option stateInfo

/-- The machine (Go struct `stateMachineImpl`): table, current state,
optional ignore hook. -/
structure stateMachineImpl where
  graph : Graph
  current : StateNode
  ignore : Option Callback

/-- The empty table (Go: `make(map[StateNode]map[EventType]stateInfo)`). -/
def emptyGraph : Graph := fun _ _ => none

/-- Map insertion `transTable[edge.Event] = stateInfo{state: edge.To, cb: edge.Callback}`. -/
def insertEdge (g : Graph) (edge : TransEdge) : Graph :=
  fun s t =>
    if s = edge.From ∧ t = edge.Event then some ⟨edge.To, edge.Callback⟩ else g s t

/-- The construction loop of `NewFSM`: iterate the edges in order; if the
key `(edge.From, edge.Event)` is already present, fail with the
"invalid fsm" error; otherwise insert the entry and continue. -/
def buildGraph : Graph → List TransEdge → Except String Graph
  | g, [] => .ok g
  | g, edge :: rest =>
    match g edge.From edge.Event with
    | some _ => .error "invalid fsm"
    | none => buildGraph (insertEdge g edge) rest

/-- Constructor `NewFSM` (Go lines 48-69): build the table from the edge list; on
success return the machine with `current = st` and the stored ignore
hook; on a duplicate `(From, Event)` pair return the error and no machine. -/
def NewFSM (st : StateNode) (edges : List TransEdge) (ignore : Option Callback) :
    Except String stateMachineImpl :=
  (buildGraph emptyGraph edges).map fun g =>
    { graph := g, current := st, ignore := ignore }

/-- Result of one `Emit` call: the machine afterwards, the returned
boolean, and the list of events the ignore hook was invoked with during
the call (observability of the Go side effect `m.ignore(e)`). -/
structure EmitRes where
  m : stateMachineImpl
  ok : Bool
  ignored : List Event

/-- Dispatcher `Emit` (Go lines 82-102): look up `(current, e.Type())`; on a miss,
invoke the ignore hook when non-nil and return false; on a hit, consult
the optional guard: guard absent or true performs the transition and
returns true, guard false leaves the state and returns false. -/
def stateMachineImpl.Emit (m : stateMachineImpl) (e : Event) : EmitRes :=
  match m.graph m.current e.type_ with
  | none =>
    match m.ignore with
    | some _ => { m := m, ok := false, ignored := [e] }
    | none => { m := m, ok := false, ignored := [] }
  | some nextState =>
    match nextState.cb with
    | some allowTrans =>
      if allowTrans e then
        { m := { m with current := nextState.state }, ok := true, ignored := [] }
      else
        { m := m, ok := false, ignored := [] }
    | none => { m := { m with current := nextState.state }, ok := true, ignored := [] }

/-- Accessor `CurrentState` (Go lines 104-106): return the current state. -/
def stateMachineImpl.CurrentState (m : stateMachineImpl) : StateNode :=
  m.current

/-- Run a sequence of events through the machine, collecting every
`Emit` result in order together with the final machine. -/
def run (m : stateMachineImpl) : List Event → stateMachineImpl × List EmitRes
  | [] => (m, [])
  | e :: rest =>
    let r := m.Emit e
    let p := run r.m rest
    (p.1, r :: p.2)

/-- The `(From, Event)` key of an edge, the unit of duplicate detection. -/
def edgeKey (e : TransEdge) : StateNode × EventType := (e.From, e.Event)

/-- Modelled from the spec (section 4.2 contract of `currentState`): the
state "reflects the latest successful transition (or the initial state if
none has occurred)".  Given the initial state and the per-call trace of
(returned boolean, state after the call), return the state recorded by
the latest `true` call, or the initial state when there is none. -/
def specLatestSuccessState (st : StateNode) : List (Bool × StateNode) → StateNode
  | [] => st
  | p :: rest => specLatestSuccessState (if p.1 then p.2 else st) rest

/-! ### Concrete values used by the witness theorems -/

/-- A guard that always accepts. -/
def guardTrue : Callback := fun _ => true

/-- A guard that always rejects. -/
def guardFalse : Callback := fun _ => false

/-- A sample event of type 2. -/
def evW : Event := { type_ := 2, payload := 0 }

/-- A machine with an empty table, an ignore hook, current state 5. -/
def mEmptyW : stateMachineImpl :=
  { graph := emptyGraph, current := 5, ignore := some guardTrue }

/-- A machine with one always-rejecting guarded edge 1 -(2)-> 3, current state 1. -/
def mGuardW : stateMachineImpl :=
  { graph := insertEdge emptyGraph { From := 1, Event := 2, To := 3, Callback := some guardFalse },
    current := 1, ignore := some guardTrue }

/-- A machine with one unguarded self-loop edge 1 -(2)-> 1, current state 1. -/
def mSelfW : stateMachineImpl :=
  { graph := insertEdge emptyGraph { From := 1, Event := 2, To := 1, Callback := none },
    current := 1, ignore := none }

/-! ### Evaluation lemmas for `Emit`, one per branch of the Go dispatcher -/

/-- Lookup miss with a configured ignore hook: state kept, `false`
returned, hook invoked once with the event. -/
theorem emit_miss_some (m : stateMachineImpl) (e : Event) (f : Callback)
    (h : m.graph m.current e.type_ = none) (hig : m.ignore = some f) :
    m.Emit e = { m := m, ok := false, ignored := [e] } := by
  unfold stateMachineImpl.Emit
  rw [h, hig]

/-- Lookup miss with no ignore hook: state kept, `false` returned, no hook call. -/
theorem emit_miss_none (m : stateMachineImpl) (e : Event)
    (h : m.graph m.current e.type_ = none) (hig : m.ignore = none) :
    m.Emit e = { m := m, ok := false, ignored := [] } := by
  unfold stateMachineImpl.Emit
  rw [h, hig]

/-- Lookup hit on a guarded entry: the guard decides the outcome. -/
theorem emit_hit_guard (m : stateMachineImpl) (e : Event) (info : stateInfo) (g : Callback)
    (h : m.graph m.current e.type_ = some info) (hcb : info.cb = some g) :
    m.Emit e =
      if g e then { m := { m with current := info.state }, ok := true, ignored := [] }
      else { m := m, ok := false, ignored := [] } := by
  simp only [stateMachineImpl.Emit, h, hcb]

/-- Lookup hit on an unguarded entry: unconditional transition. -/
theorem emit_hit_noguard (m : stateMachineImpl) (e : Event) (info : stateInfo)
    (h : m.graph m.current e.type_ = some info) (hcb : info.cb = none) :
    m.Emit e = { m := { m with current := info.state }, ok := true, ignored := [] } := by
  simp only [stateMachineImpl.Emit, h, hcb]

/-- A rejecting `Emit` call returns the machine completely unchanged. -/
theorem emit_false_machine_eq (m : stateMachineImpl) (e : Event)
    (h : (m.Emit e).ok = false) : (m.Emit e).m = m := by
  rcases hg : m.graph m.current e.type_ with _ | info
  · rcases hig : m.ignore with _ | f
    · rw [emit_miss_none m e hg hig]
    · rw [emit_miss_some m e f hg hig]
  · rcases hcb : info.cb with _ | g
    · rw [emit_hit_noguard m e info hg hcb] at h
      cases h
    · rw [emit_hit_guard m e info g hg hcb] at h ⊢
      rcases hge : g e with _ | _
      · simp [hge]
      · simp [hge] at h

/-- Claim C2: emitting an event whose type has no registered transition
from the current state returns `false`, leaves the state unchanged, and
invokes the ignore hook exactly once with that event when one is
configured, and invokes nothing when none is configured. -/
theorem emit_no_transition_spec (m : stateMachineImpl) (e : Event)
    (h : m.graph m.current e.type_ = none) :
    (m.Emit e).ok = false ∧ (m.Emit e).m.current = m.current ∧
      (∀ f, m.ignore = some f → (m.Emit e).ignored = [e]) ∧
      (m.ignore = none → (m.Emit e).ignored = []) := by
  rcases hig : m.ignore with _ | f
  · rw [emit_miss_none m e h hig]
    refine ⟨rfl, rfl, fun f hf => ?_, fun _ => rfl⟩
    simp at hf
  · rw [emit_miss_some m e f h hig]
    refine ⟨rfl, rfl, fun _ _ => rfl, fun hn => ?_⟩
    simp at hn

/-- Witness for C2 on the concrete machine `mEmptyW` and event `evW`. -/
theorem emit_no_transition_spec_witness :
    (mEmptyW.Emit evW).ok = false ∧ (mEmptyW.Emit evW).m.current = mEmptyW.current ∧
      (∀ f, mEmptyW.ignore = some f → (mEmptyW.Emit evW).ignored = [evW]) ∧
      (mEmptyW.ignore = none → (mEmptyW.Emit evW).ignored = []) :=
  emit_no_transition_spec mEmptyW evW rfl

/-- Claim C3: when the table has an entry for (current state, event type)
whose guard rejects the event, `Emit` returns `false`, the state is
unchanged, and the ignore hook is not invoked. -/
theorem emit_guard_reject_spec (m : stateMachineImpl) (e : Event) (info : stateInfo)
    (g : Callback) (h : m.graph m.current e.type_ = some info)
    (hcb : info.cb = some g) (hge : g e = false) :
    (m.Emit e).ok = false ∧ (m.Emit e).m.current = m.current ∧ (m.Emit e).ignored = [] := by
  rw [emit_hit_guard m e info g h hcb]
  simp [hge]

/-- Witness for C3 on the concrete machine `mGuardW` and event `evW`. -/
theorem emit_guard_reject_spec_witness :
    (mGuardW.Emit evW).ok = false ∧ (mGuardW.Emit evW).m.current = mGuardW.current ∧
      (mGuardW.Emit evW).ignored = [] :=
  emit_guard_reject_spec mGuardW evW { state := 3, cb := some guardFalse } guardFalse
    rfl rfl rfl

/-- Claim C4: when the table has an entry for (current state, event type)
with no guard, or with a guard accepting the event, `Emit` moves the
state to the entry destination and returns `true`; self-loops included. -/
theorem emit_transition_success_spec (m : stateMachineImpl) (e : Event) (info : stateInfo)
    (h : m.graph m.current e.type_ = some info)
    (hcb : info.cb = none ∨ ∃ g, info.cb = some g ∧ g e = true) :
    (m.Emit e).ok = true ∧ (m.Emit e).m.current = info.state := by
  rcases hcb with hn | ⟨g, hg, hge⟩
  · rw [emit_hit_noguard m e info h hn]
    exact ⟨rfl, rfl⟩
  · rw [emit_hit_guard m e info g h hg]
    simp [hge]

/-- Witness for C4 on the concrete self-loop machine `mSelfW` and event `evW`. -/
theorem emit_transition_success_spec_witness :
    (mSelfW.Emit evW).ok = true ∧ (mSelfW.Emit evW).m.current = (1 : StateNode) :=
  emit_transition_success_spec mSelfW evW { state := 1, cb := none } rfl (Or.inl rfl)

/-- Claim C5: whenever `Emit` returns `false`, the current state after the
call equals the current state before it — rejection never mutates state. -/
theorem emit_false_state_unchanged_spec (m : stateMachineImpl) (e : Event)
    (h : (m.Emit e).ok = false) : (m.Emit e).m.current = m.current :=
  congrArg stateMachineImpl.current (emit_false_machine_eq m e h)

/-- Witness for C5 on the concrete machine `mGuardW` and event `evW`. -/
theorem emit_false_state_unchanged_spec_witness :
    (mGuardW.Emit evW).m.current = mGuardW.current :=
  emit_false_state_unchanged_spec mGuardW evW rfl

/-- Claim C8: `Emit` mutates at most the current-state field — the table
and the ignore hook are identical before and after every call. -/
theorem emit_frame_spec (m : stateMachineImpl) (e : Event) :
    (m.Emit e).m.graph = m.graph ∧ (m.Emit e).m.ignore = m.ignore := by
  rcases hg : m.graph m.current e.type_ with _ | info
  · rcases hig : m.ignore with _ | f
    · rw [emit_miss_none m e hg hig]
      exact ⟨rfl, hig⟩
    · rw [emit_miss_some m e f hg hig]
      exact ⟨rfl, hig⟩
  · rcases hcb : info.cb with _ | g
    · rw [emit_hit_noguard m e info hg hcb]
      exact ⟨rfl, rfl⟩
    · rw [emit_hit_guard m e info g hg hcb]
      rcases hge : g e with _ | _ <;> simp [hge]

/-! ### Lemmas about `NewFSM` and `run` -/

/-- Eliminating a successful construction: the machine starts at `st`,
stores the given ignore hook, and its table is the one built by the loop. -/
theorem newFSM_ok_elim (st : StateNode) (edges : List TransEdge) (ig : Option Callback)
    (m : stateMachineImpl) (h : NewFSM st edges ig = .ok m) :
    m.current = st ∧ m.ignore = ig ∧ buildGraph emptyGraph edges = .ok m.graph := by
  unfold NewFSM at h
  cases hb : buildGraph emptyGraph edges with
  | error err =>
    rw [hb] at h
    simp only [Except.map] at h
    exact Except.noConfusion h
  | ok g =>
    rw [hb] at h
    simp only [Except.map] at h
    injection h with h
    subst h
    exact ⟨rfl, rfl, rfl⟩

/-- After any event sequence the final state is the one recorded by the
latest accepting call, or the starting state when every call rejected. -/
theorem run_latest_success (m : stateMachineImpl) (evs : List Event) :
    (run m evs).1.current =
      specLatestSuccessState m.current ((run m evs).2.map fun r => (r.ok, r.m.current)) := by
  induction evs generalizing m with
  | nil => rfl
  | cons e rest ih =>
    rcases hok : (m.Emit e).ok with _ | _
    · have hm : (m.Emit e).m = m := emit_false_machine_eq m e hok
      simp [run, specLatestSuccessState, hok, hm, ih]
    · simp [run, specLatestSuccessState, hok, ih]

/-- Claim C9: `CurrentState` after running any event sequence on a freshly
constructed machine equals the state of the latest `Emit` call that
returned `true`, or the initial state passed to `NewFSM` when none did. -/
theorem currentState_latest_success_spec (st : StateNode) (edges : List TransEdge)
    (ig : Option Callback) (m : stateMachineImpl) (evs : List Event)
    (h : NewFSM st edges ig = .ok m) :
    (run m evs).1.CurrentState =
      specLatestSuccessState st ((run m evs).2.map fun r => (r.ok, r.m.current)) := by
  obtain ⟨hc, -, -⟩ := newFSM_ok_elim st edges ig m h
  rw [stateMachineImpl.CurrentState, ← hc]
  exact run_latest_success m evs

/-- Witness for C9 on a freshly built empty-table machine and one event. -/
theorem currentState_latest_success_spec_witness :
    (run mEmptyW [evW]).1.CurrentState =
      specLatestSuccessState 5 ((run mEmptyW [evW]).2.map fun r => (r.ok, r.m.current)) :=
  currentState_latest_success_spec 5 [] (some guardTrue) mEmptyW [evW] rfl

/-- Claim C6: constructing twice from the same inputs and running the same
event sequence yields the same per-call booleans and the same final state. -/
theorem run_deterministic_spec (st : StateNode) (edges : List TransEdge) (ig : Option Callback)
    (m1 m2 : stateMachineImpl) (evs : List Event)
    (h1 : NewFSM st edges ig = .ok m1) (h2 : NewFSM st edges ig = .ok m2) :
    ((run m1 evs).2.map EmitRes.ok = (run m2 evs).2.map EmitRes.ok) ∧
      (run m1 evs).1.CurrentState = (run m2 evs).1.CurrentState := by
  rw [h1] at h2
  injection h2 with h2
  subst h2
  exact ⟨rfl, rfl⟩

/-- Witness for C6 on a freshly built empty-table machine and one event. -/
theorem run_deterministic_spec_witness :
    ((run mEmptyW [evW]).2.map EmitRes.ok = (run mEmptyW [evW]).2.map EmitRes.ok) ∧
      (run mEmptyW [evW]).1.CurrentState = (run mEmptyW [evW]).1.CurrentState :=
  run_deterministic_spec 5 [] (some guardTrue) mEmptyW mEmptyW [evW] rfl rfl

/-- The result of an `Emit` call that misses the table: machine and state
kept, `false` returned, ignore hook invoked exactly when configured. -/
def missRes (m : stateMachineImpl) (e : Event) : EmitRes where
  m := m
  ok := false
  ignored :=
    match m.ignore with
    | some _ => [e]
    | none => []

/-- Running any events on a machine whose table is empty leaves the
machine untouched and produces only rejecting results, each invoking the
ignore hook exactly when one is configured. -/
theorem run_empty_graph (m : stateMachineImpl) (hg : m.graph = emptyGraph) (evs : List Event) :
    run m evs = (m, evs.map (missRes m)) := by
  induction evs with
  | nil => rfl
  | cons e rest ih =>
    have hmiss : m.graph m.current e.type_ = none := by rw [hg]; rfl
    have he : m.Emit e = missRes m e := by
      rcases hig : m.ignore with _ | f
      · rw [emit_miss_none m e hmiss hig]
        simp only [missRes, hig]
      · rw [emit_miss_some m e f hmiss hig]
        simp only [missRes, hig]
    simp only [run, he, List.map_cons]
    have hmm : (missRes m e).m = m := rfl
    rw [hmm, ih]

/-- Claim C7: a machine built with zero transitions rejects every event of
every sequence, ends every sequence in the initial state, and invokes the
configured ignore hook on every call. -/
theorem empty_table_forever_initial_spec (st : StateNode) (ig : Option Callback)
    (m : stateMachineImpl) (evs : List Event) (h : NewFSM st [] ig = .ok m) :
    ((run m evs).2.map EmitRes.ok = evs.map fun _ => false) ∧
      (run m evs).1.current = st ∧
      (∀ f, ig = some f → (run m evs).2.map EmitRes.ignored = evs.map fun e => [e]) := by
  obtain ⟨hc, hig, hb⟩ := newFSM_ok_elim st [] ig m h
  have hg : m.graph = emptyGraph := by
    simp only [buildGraph] at hb
    injection hb with hb
    exact hb.symm
  rw [run_empty_graph m hg evs]
  refine ⟨?_, hc, ?_⟩
  · rw [List.map_map]
    have hcomp : (EmitRes.ok ∘ missRes m) = fun _ => false := funext fun _ => rfl
    rw [hcomp]
  · intro f hf
    rw [hf] at hig
    rw [List.map_map]
    have hcomp : (EmitRes.ignored ∘ missRes m) = fun e => [e] :=
      funext fun e => by simp [missRes, hig]
    rw [hcomp]

/-- Witness for C7 on a freshly built empty-table machine and one event. -/
theorem empty_table_forever_initial_spec_witness :
    ((run mEmptyW [evW]).2.map EmitRes.ok = [evW].map fun _ => false) ∧
      (run mEmptyW [evW]).1.current = 5 ∧
      (∀ f, (some guardTrue : Option Callback) = some f →
        (run mEmptyW [evW]).2.map EmitRes.ignored = [evW].map fun e => [e]) :=
  empty_table_forever_initial_spec 5 (some guardTrue) mEmptyW [evW] rfl

/-! ### Characterization of the construction loop -/

/-- An inserted table is `none` at a key exactly when the key differs
from the inserted edge's key and the old table was `none` there. -/
theorem insertEdge_apply_eq_none (g0 : Graph) (edge : TransEdge) (s : StateNode)
    (t : EventType) :
    insertEdge g0 edge s t = none ↔
      ¬(s = edge.From ∧ t = edge.Event) ∧ g0 s t = none := by
  by_cases hc : s = edge.From ∧ t = edge.Event
  · simp only [insertEdge]
    rw [if_pos hc]
    simp [hc]
  · simp only [insertEdge]
    rw [if_neg hc]
    simp [hc]

/-- The construction loop succeeds exactly when the edges' (From, Event)
keys are pairwise distinct and none of them is already in the table. -/
theorem buildGraph_ok_iff :
    ∀ (edges : List TransEdge) (g0 : Graph),
      (∃ g, buildGraph g0 edges = .ok g) ↔
        ((edges.map edgeKey).Nodup ∧ ∀ e ∈ edges, g0 e.From e.Event = none) := by
  intro edges
  induction edges with
  | nil =>
    intro g0
    simp [buildGraph]
  | cons edge rest ih =>
    intro g0
    rcases hk : g0 edge.From edge.Event with _ | v
    · rw [show buildGraph g0 (edge :: rest) = buildGraph (insertEdge g0 edge) rest from by
        simp only [buildGraph, hk]]
      rw [ih]
      constructor
      · rintro ⟨hnd, hall⟩
        refine ⟨?_, ?_⟩
        · rw [List.map_cons, List.nodup_cons]
          refine ⟨?_, hnd⟩
          rw [List.mem_map]
          rintro ⟨e, he, hkey⟩
          have h2 := (insertEdge_apply_eq_none g0 edge e.From e.Event).1 (hall e he)
          have hfe : e.From = edge.From ∧ e.Event = edge.Event := by
            simpa [edgeKey, Prod.mk.injEq] using hkey
          exact h2.1 hfe
        · intro e he
          rcases List.mem_cons.1 he with rfl | he'
          · exact hk
          · exact ((insertEdge_apply_eq_none g0 edge e.From e.Event).1 (hall e he')).2
      · rintro ⟨hnd, hall⟩
        rw [List.map_cons, List.nodup_cons] at hnd
        refine ⟨hnd.2, fun e he => ?_⟩
        rw [insertEdge_apply_eq_none]
        refine ⟨?_, hall e (List.mem_cons_of_mem _ he)⟩
        intro hcnd
        apply hnd.1
        rw [List.mem_map]
        exact ⟨e, he, by simp [edgeKey, hcnd.1, hcnd.2]⟩
    · rw [show buildGraph g0 (edge :: rest) = .error "invalid fsm" from by
        simp only [buildGraph, hk]]
      constructor
      · rintro ⟨g, hg⟩
        exact Except.noConfusion hg
      · rintro ⟨-, hall⟩
        have hnone := hall edge (List.mem_cons_self _ _)
        rw [hk] at hnone
        exact Option.noConfusion hnone

/-- The only construction error the loop ever produces is "invalid fsm". -/
theorem buildGraph_error_eq :
    ∀ (edges : List TransEdge) (g0 : Graph) (s : String),
      buildGraph g0 edges = .error s → s = "invalid fsm" := by
  intro edges
  induction edges with
  | nil =>
    intro g0 s h
    simp only [buildGraph] at h
    exact Except.noConfusion h
  | cons edge rest ih =>
    intro g0 s h
    rcases hk : g0 edge.From edge.Event with _ | v
    · rw [show buildGraph g0 (edge :: rest) = buildGraph (insertEdge g0 edge) rest from by
        simp only [buildGraph, hk]] at h
      exact ih _ _ h
    · rw [show buildGraph g0 (edge :: rest) = .error "invalid fsm" from by
        simp only [buildGraph, hk]] at h
      injection h with h
      exact h.symm

/-- On a duplicated (From, Event) key, construction returns exactly the
"invalid fsm" error. -/
theorem newFSM_of_not_nodup (st : StateNode) (edges : List TransEdge) (ig : Option Callback)
    (h : ¬ (edges.map edgeKey).Nodup) :
    NewFSM st edges ig = .error "invalid fsm" := by
  cases hb : buildGraph emptyGraph edges with
  | error s =>
    have hs : s = "invalid fsm" := buildGraph_error_eq edges emptyGraph s hb
    subst hs
    unfold NewFSM
    rw [hb]
    rfl
  | ok g =>
    exact absurd ((buildGraph_ok_iff edges emptyGraph).1 ⟨g, hb⟩).1 h

/-- Construction succeeds exactly when the (From, Event) keys are distinct. -/
theorem newFSM_succeeds_iff (st : StateNode) (edges : List TransEdge) (ig : Option Callback) :
    (∃ m, NewFSM st edges ig = .ok m) ↔ (edges.map edgeKey).Nodup := by
  constructor
  · rintro ⟨m, hm⟩
    obtain ⟨-, -, hb⟩ := newFSM_ok_elim st edges ig m hm
    exact ((buildGraph_ok_iff edges emptyGraph).1 ⟨m.graph, hb⟩).1
  · intro hnd
    obtain ⟨g, hg⟩ := (buildGraph_ok_iff edges emptyGraph).2 ⟨hnd, fun e _ => rfl⟩
    refine ⟨{ graph := g, current := st, ignore := ig }, ?_⟩
    unfold NewFSM
    rw [hg]
    rfl

/-- Claim C1: `NewFSM` fails exactly when the edge list contains two
transitions sharing a (From, Event) pair, and succeeds for every edge
list whose (From, Event) pairs are pairwise distinct. -/
theorem newFSM_dup_characterization (st : StateNode) (edges : List TransEdge)
    (ig : Option Callback) :
    ((∃ err, NewFSM st edges ig = .error err) ↔ ¬ (edges.map edgeKey).Nodup) ∧
      ((edges.map edgeKey).Nodup → ∃ m, NewFSM st edges ig = .ok m) := by
  constructor
  · constructor
    · rintro ⟨err, herr⟩ hnd
      obtain ⟨m, hm⟩ := (newFSM_succeeds_iff st edges ig).2 hnd
      rw [herr] at hm
      exact Except.noConfusion hm
    · intro hnd
      exact ⟨"invalid fsm", newFSM_of_not_nodup st edges ig hnd⟩
  · exact (newFSM_succeeds_iff st edges ig).2

/-- Keys already assigned in the table survive the construction loop. -/
theorem buildGraph_mono :
    ∀ (edges : List TransEdge) (g0 g : Graph) (s : StateNode) (t : EventType) (v : stateInfo),
      buildGraph g0 edges = .ok g → g0 s t = some v → g s t = some v := by
  intro edges
  induction edges with
  | nil =>
    intro g0 g s t v hb hv
    simp only [buildGraph] at hb
    injection hb with hb
    subst hb
    exact hv
  | cons edge rest ih =>
    intro g0 g s t v hb hv
    rcases hk : g0 edge.From edge.Event with _ | w
    · rw [show buildGraph g0 (edge :: rest) = buildGraph (insertEdge g0 edge) rest from by
        simp only [buildGraph, hk]] at hb
      refine ih _ _ _ _ _ hb ?_
      simp only [insertEdge]
      by_cases hc : s = edge.From ∧ t = edge.Event
      · rw [hc.1, hc.2] at hv
        rw [hv] at hk
        exact Option.noConfusion hk
      · rw [if_neg hc]
        exact hv
    · rw [show buildGraph g0 (edge :: rest) = .error "invalid fsm" from by
        simp only [buildGraph, hk]] at hb
      exact Except.noConfusion hb

/-- Keys touched by no edge keep their pre-construction value. -/
theorem buildGraph_frame :
    ∀ (edges : List TransEdge) (g0 g : Graph) (s : StateNode) (t : EventType),
      buildGraph g0 edges = .ok g →
      (∀ e ∈ edges, ¬(e.From = s ∧ e.Event = t)) → g s t = g0 s t := by
  intro edges
  induction edges with
  | nil =>
    intro g0 g s t hb _
    simp only [buildGraph] at hb
    injection hb with hb
    subst hb
    rfl
  | cons edge rest ih =>
    intro g0 g s t hb hnone
    rcases hk : g0 edge.From edge.Event with _ | w
    · rw [show buildGraph g0 (edge :: rest) = buildGraph (insertEdge g0 edge) rest from by
        simp only [buildGraph, hk]] at hb
      rw [ih _ _ s t hb (fun e he => hnone e (List.mem_cons_of_mem _ he))]
      simp only [insertEdge]
      have hcneg : ¬(s = edge.From ∧ t = edge.Event) := fun hc =>
        hnone edge (List.mem_cons_self _ _) ⟨hc.1.symm, hc.2.symm⟩
      rw [if_neg hcneg]
    · rw [show buildGraph g0 (edge :: rest) = .error "invalid fsm" from by
        simp only [buildGraph, hk]] at hb
      exact Except.noConfusion hb

/-- A successfully built table maps each edge's key to that edge's
destination and guard. -/
theorem buildGraph_mem (e : TransEdge) :
    ∀ (edges : List TransEdge) (g0 g : Graph),
      buildGraph g0 edges = .ok g → e ∈ edges →
      g e.From e.Event = some { state := e.To, cb := e.Callback } := by
  intro edges
  induction edges with
  | nil =>
    intro g0 g _ he
    exact absurd he (List.not_mem_nil e)
  | cons edge rest ih =>
    intro g0 g hb he
    rcases hk : g0 edge.From edge.Event with _ | w
    · rw [show buildGraph g0 (edge :: rest) = buildGraph (insertEdge g0 edge) rest from by
        simp only [buildGraph, hk]] at hb
      rcases List.mem_cons.1 he with rfl | he'
      · refine buildGraph_mono rest _ g e.From e.Event _ hb ?_
        simp [insertEdge]
      · exact ih _ _ hb he'
    · rw [show buildGraph g0 (edge :: rest) = .error "invalid fsm" from by
        simp only [buildGraph, hk]] at hb
      exact Except.noConfusion hb

/-- Claim C10: construction is order-insensitive — permuting the edge
list yields an identical construction result: the same failure, or
machines with equal tables and hence equal behavior. -/
theorem newFSM_perm_invariant (st : StateNode) (ig : Option Callback)
    (edges1 edges2 : List TransEdge) (hp : edges1.Perm edges2) :
    NewFSM st edges1 ig = NewFSM st edges2 ig := by
  by_cases hnd : (edges1.map edgeKey).Nodup
  · have hnd2 : (edges2.map edgeKey).Nodup := ((hp.map edgeKey).nodup_iff).1 hnd
    obtain ⟨m1, h1⟩ := (newFSM_succeeds_iff st edges1 ig).2 hnd
    obtain ⟨m2, h2⟩ := (newFSM_succeeds_iff st edges2 ig).2 hnd2
    obtain ⟨hc1, hi1, hb1⟩ := newFSM_ok_elim st edges1 ig m1 h1
    obtain ⟨hc2, hi2, hb2⟩ := newFSM_ok_elim st edges2 ig m2 h2
    have hg : m1.graph = m2.graph := by
      funext s t
      by_cases hex : ∃ e ∈ edges1, e.From = s ∧ e.Event = t
      · obtain ⟨e, he, hkey⟩ := hex
        rw [← hkey.1, ← hkey.2]
        rw [buildGraph_mem e edges1 emptyGraph m1.graph hb1 he,
          buildGraph_mem e edges2 emptyGraph m2.graph hb2 (hp.mem_iff.1 he)]
      · have hex1 : ∀ e ∈ edges1, ¬(e.From = s ∧ e.Event = t) := fun e he hk =>
          hex ⟨e, he, hk⟩
        have hex2 : ∀ e ∈ edges2, ¬(e.From = s ∧ e.Event = t) := fun e he hk =>
          hex ⟨e, hp.mem_iff.2 he, hk⟩
        rw [buildGraph_frame edges1 emptyGraph m1.graph s t hb1 hex1,
          buildGraph_frame edges2 emptyGraph m2.graph s t hb2 hex2]
    have hm12 : m1 = m2 := by
      cases m1 with
      | mk g1 c1 i1 =>
        cases m2 with
        | mk g2 c2 i2 =>
          dsimp only at hc1 hc2 hi1 hi2 hg
          rw [stateMachineImpl.mk.injEq]
          exact ⟨hg, hc1.trans hc2.symm, hi1.trans hi2.symm⟩
    rw [h1, h2, hm12]
  · have hnd2 : ¬(edges2.map edgeKey).Nodup := fun hnodup =>
      hnd (((hp.map edgeKey).nodup_iff).2 hnodup)
    rw [newFSM_of_not_nodup st edges1 ig hnd, newFSM_of_not_nodup st edges2 ig hnd2]

/-- An unguarded edge 1 -(2)-> 3 used by the permutation witness. -/
def edgeA : TransEdge := { From := 1, Event := 2, To := 3, Callback := none }

/-- An unguarded edge 4 -(5)-> 6 used by the permutation witness. -/
def edgeB : TransEdge := { From := 4, Event := 5, To := 6, Callback := none }

/-- Witness for C10 on a concrete two-edge permutation. -/
theorem newFSM_perm_invariant_witness :
    NewFSM 0 [edgeA, edgeB] none = NewFSM 0 [edgeB, edgeA] none :=
  newFSM_perm_invariant 0 none [edgeA, edgeB] [edgeB, edgeA] (List.Perm.swap edgeB edgeA [])

end FSMGo
